import Mathlib

/-!
Verification of the holidaze entity-extraction engine.

The definitions in this file are a shallow embedding of the Python sources
`src/extractor.py` and `src/models.py` of the holidaze repository.  Python
strings are modelled as `List Char`, regular-expression searches as explicit
scanning functions over character lists, `datetime.date` as a record of three
naturals, and the mutable `EntityExtractor` object as explicit state passing
(message list plus item counter).  Each definition carries the name of the
Python function or constant it embeds.
-/

set_option maxRecDepth 20000

namespace Holidaze

/-- Abbreviation turning a string literal into the character-list model of a
Python string. -/
def cs (s : String) : List Char := s.toList

/-! ## Python string primitives -/

/-- Python `str.lower` (ASCII case folding, which covers every string the
extractor handles). -/
def lowerStr (s : List Char) : List Char := s.map Char.toLower

/-- Python `str.upper`. -/
def upperStr (s : List Char) : List Char := s.map Char.toUpper

/-- The characters Python `str.strip` and the regex class `\s` treat as
whitespace. -/
def isPySpace (c : Char) : Bool :=
  c = ' ' || c = '\t' || c = '\n' || c = '\r' || c = '\x0b' || c = '\x0c'

/-- Python `str.strip`. -/
def pyStrip (s : List Char) : List Char :=
  ((s.dropWhile isPySpace).reverse.dropWhile isPySpace).reverse

/-- One step of Python `str.title`: `prev` records whether the previous
character was alphabetic (cased). -/
def pyTitleGo : Bool → List Char → List Char
  | _, [] => []
  | prev, c :: t =>
    (if c.isAlpha then (if prev then c.toLower else c.toUpper) else c)
      :: pyTitleGo c.isAlpha t

/-- Python `str.title`. -/
def pyTitle (s : List Char) : List Char := pyTitleGo false s

/-- Python `pat in s` substring containment (`pat` and `s` already in the
case the call site needs). -/
def containsSub : List Char → List Char → Bool
  | pat, [] => pat.isEmpty
  | pat, c :: t => pat.isPrefixOf (c :: t) || containsSub pat t

/-- Python `str.replace`, written with explicit fuel (one unit per character
of the input, enough because every step consumes at least one character) so
that the kernel can evaluate it. -/
def pyReplaceGo (pat rep : List Char) : Nat → List Char → List Char
  | 0, s => s
  | _ + 1, [] => []
  | fuel + 1, c :: t =>
    if pat ≠ [] ∧ pat.isPrefixOf (c :: t) then
      rep ++ pyReplaceGo pat rep fuel ((c :: t).drop pat.length)
    else
      c :: pyReplaceGo pat rep fuel t

/-- Python `str.replace`. -/
def pyReplace (pat rep s : List Char) : List Char :=
  pyReplaceGo pat rep s.length s

/-- Truthiness of an optional Python string: `None` and `""` are falsy. -/
def strTruthy : Option (List Char) → Bool
  | none => false
  | some [] => false
  | some (_ :: _) => true

/-- Decimal digits of a natural number (Python `str(n)` for a `Nat`). -/
def natChars (n : Nat) : List Char := (Nat.repr n).toList

/-- Zero-padded decimal rendering, as Python `str(date)` produces for the
year/month/day fields. -/
def natPad (w n : Nat) : List Char :=
  let ds := natChars n
  List.replicate (w - ds.length) '0' ++ ds

/-! ## Regex scanning primitives -/

/-- A character of the regex class `\w`. -/
def isWordChar (c : Char) : Bool := c.isAlphanum || c = '_'

/-- Case-insensitive literal consumption: `pat` is given lower-cased; on
success the remaining (original) characters are returned. -/
def dropPrefixCI : List Char → List Char → Option (List Char)
  | [], s => some s
  | _ :: _, [] => none
  | p :: pt, c :: ct => if c.toLower = p then dropPrefixCI pt ct else none

/-- Length of the leading `\s` run. -/
def wsCount (s : List Char) : Nat := (s.takeWhile isPySpace).length

/-- A regex word boundary `\b` placed after a word character: the rest of the
input must be empty or start with a non-word character. -/
def boundaryAfter : List Char → Bool
  | [] => true
  | c :: _ => !isWordChar c

/-- A regex word boundary `\b` placed before a word character: the previous
character (if any) must be a non-word character. -/
def boundaryBefore : Option Char → Bool
  | none => true
  | some c => !isWordChar c

/-! ## Data model

`models.py` in the repository predates the extractor: it lacks the `Message`
class, the `ItemStatus` enum and the `status`/`proposed_by`/`booking_links`/
`source_messages` fields that `extractor.py` imports and uses.  The item
shape consumed by the extractor is therefore modelled from the spec (its §3
data model), while the `Itinerary` groupings present in `models.py` are
embedded from that file further below. -/

/-- `models.ItemCategory` (from `src/models.py`). -/
inductive ItemCategory where
  | FLIGHT | HOTEL | TRANSFER | ACTIVITY
deriving DecidableEq, Repr

/-- Modelled from the spec: `models.ItemStatus`, the `CONFIRMED`/`TENTATIVE`
status enum imported by `extractor.py` but absent from the `models.py` in the
repository snapshot. -/
inductive ItemStatus where
  | CONFIRMED | TENTATIVE
deriving DecidableEq, Repr

/-- Modelled from the spec: `models.Message`, the record produced by the
transcript reader (§3: timestamp, sender, content, is-system flag), absent
from the `models.py` snapshot. -/
structure Msg where
  timestamp : Nat
  sender : List Char
  content : List Char
  isSystem : Bool
deriving DecidableEq, Repr

/-- `datetime.date`: a calendar date. -/
structure D where
  y : Nat
  m : Nat
  d : Nat
deriving DecidableEq, Repr

/-- Numeric encoding realising the lexicographic (year, month, day) order of
Python `datetime.date` comparison for calendar dates. -/
def encD (a : D) : Nat := (a.y * 100 + a.m) * 100 + a.d

/-- Python `date` comparison `a <= b`. -/
def dleB (a b : D) : Bool := encD a ≤ encD b

/-- `datetime.date.max`, the sentinel used as sort key for undated items. -/
def dateMax : D := ⟨9999, 12, 31⟩

/-- `str(date)`: ISO rendering `YYYY-MM-DD`, used inside dedup keys. -/
def isoStr (a : D) : List Char :=
  natPad 4 a.y ++ cs "-" ++ natPad 2 a.m ++ cs "-" ++ natPad 2 a.d

/-- Days in a month, as `datetime` validates them. -/
def daysInMonth (y m : Nat) : Nat :=
  if m = 2 then
    (if y % 4 = 0 ∧ (y % 100 ≠ 0 ∨ y % 400 = 0) then 29 else 28)
  else if m = 4 ∨ m = 6 ∨ m = 9 ∨ m = 11 then 30
  else 31

/-- Modelled from the spec: the external permissive date-phrase parser
(`dateparser.parse`) applied to the day/month/year phrase the extractor
builds; it yields the calendar date when the phrase denotes a valid
`datetime` date and nothing otherwise (§4.4 contextual date inference). -/
def dateParse (d m y : Nat) : Option D :=
  if 1 ≤ y ∧ y ≤ 9999 ∧ 1 ≤ d ∧ d ≤ daysInMonth y m then some ⟨y, m, d⟩
  else none

/-- Modelled from the spec: `models.TravelItem` as the extraction engine
constructs it (§3: id, category, status, title, optional dates, proposer,
details map, booking links, evidencing messages); the `models.py` snapshot
lacks the status and provenance fields the extractor passes. -/
structure EItem where
  id : List Char
  category : ItemCategory
  status : ItemStatus
  title : List Char
  start_date : Option D := none
  end_date : Option D := none
  proposed_by : List Char := []
  details : List (List Char × List Char) := []
  booking_links : List (List Char) := []
  source_messages : List Msg := []
deriving DecidableEq, Repr

/-- `EntityExtractor._generate_id`: the id the counter value `n` produces. -/
def idStr (n : Nat) : List Char := cs "item-" ++ natChars n

/-! ## Fixed pattern tables (`extractor.py` module constants) -/

/-- One entry of `AIRLINE_PATTERNS`: the lower-cased literal parts separated
by `\s*` in the regex, the canonical airline name, and the words of the
negative lookahead `(?!\s+(?:...))` (empty for every airline but Qatar).
Every part begins and ends with a letter, so the `\s*` separators and the
lookahead's `\s+` consume exactly the whitespace run in the input. -/
structure AirlinePat where
  parts : List (List Char)
  name : List Char
  negFollow : List (List Char)
deriving DecidableEq, Repr

/-- `AIRLINE_PATTERNS`, in source order. -/
def airlinePatterns : List AirlinePat :=
  [⟨[cs "etihad"], cs "Etihad", []⟩,
   ⟨[cs "air", cs "asia"], cs "Air Asia", []⟩,
   ⟨[cs "thai", cs "airways"], cs "Thai Airways", []⟩,
   ⟨[cs "qatar"], cs "Qatar", [cs "hotel", cs "resort"]⟩,
   ⟨[cs "british", cs "airways"], cs "British Airways", []⟩,
   ⟨[cs "viet", cs "jet"], cs "VietJet", []⟩,
   ⟨[cs "oman", cs "air"], cs "Oman Air", []⟩]

/-- `FLIGHT_CONTEXT`, lower-cased as the membership test applies it. -/
def flightContext : List (List Char) :=
  [cs "flight", cs "fly", cs "flying", cs "depart", cs "arrive", cs "layover",
   cs "airport", cs "lhr", cs "bkk", cs "booking", cs "£"]

/-- `TRANSFER_KEYWORDS`. -/
def transferKeywords : List (List Char) :=
  [cs "ferry", cs "speedboat", cs "longtail boat"]

/-- One entry of `CONFIRMATION_PATTERNS`: a lower-cased literal between word
boundaries, with `bang` recording the optional `!?` of `\bbooked!?\b`. -/
structure ConfPat where
  lit : List Char
  bang : Bool
deriving DecidableEq, Repr

/-- `CONFIRMATION_PATTERNS`, in source order. -/
def confPatterns : List ConfPat :=
  [⟨cs "booked", true⟩, ⟨cs "all done", false⟩, ⟨cs "all booked", false⟩,
   ⟨cs "just booked", false⟩, ⟨cs "sorted", false⟩, ⟨cs "confirmed", false⟩,
   ⟨cs "this is booked", false⟩]

/-- The airport-code table of `_identify_route`, in insertion order (the
route string is built from the keys). -/
def airportCodes : List (List Char) :=
  [cs "LHR", cs "BKK", cs "Phuket", cs "Krabi", cs "Lanta"]

/-- The island list of `_extract_transfers`, in source order. -/
def islands : List (List Char) :=
  [cs "Koh Lipe", cs "Koh Lanta", cs "Koh Kradan", cs "Koh Libong",
   cs "Koh Mook", cs "Koh Ngai", cs "Lipe", cs "Lanta", cs "Kradan",
   cs "Libong"]

/-- The keyword-to-location table of `_dedupe_by_location`, in insertion
order. -/
def locationKeywords : List (List Char × List Char) :=
  [(cs "lipe", cs "Koh Lipe"), (cs "kradan", cs "Koh Kradan"),
   (cs "libong", cs "Koh Libong"), (cs "lanta", cs "Koh Lanta"),
   (cs "bangkok", cs "Bangkok"), (cs "sukhumvit", cs "Bangkok"),
   (cs "riverside", cs "Bangkok")]

/-! ## Airline pattern matching -/

/-- Consume the literal parts of an airline pattern, separated by `\s*`, from
the (lower-cased) input. -/
def consumeParts : List (List Char) → List Char → Option (List Char)
  | [], s => some s
  | [p], s => dropPrefixCI p s
  | p :: q :: ps, s =>
    match dropPrefixCI p s with
    | none => none
    | some r => consumeParts (q :: ps) (r.dropWhile isPySpace)

/-- Does the negative lookahead `(?!\s+(?:w₁|w₂|...))` reject at `rest`?  The
lookahead body matches exactly when a nonempty whitespace run followed by one
of the words is present. -/
def negLookRejects (words : List (List Char)) (rest : List Char) : Bool :=
  let n := wsCount rest
  n ≠ 0 && words.any (fun w => w.isPrefixOf (rest.drop n))

/-- Does an airline pattern match at the current position (`prev` is the
character before it)?  Implements `\b parts \b (?!...)`. -/
def airlineHere (a : AirlinePat) (prev : Option Char) (s : List Char) : Bool :=
  boundaryBefore prev &&
    match consumeParts a.parts s with
    | some rest => boundaryAfter rest && !negLookRejects a.negFollow rest
    | none => false

/-- `pattern.search` for an airline pattern over the lower-cased input. -/
def airlineSearchGo (a : AirlinePat) : Option Char → List Char → Bool
  | prev, [] => airlineHere a prev []
  | prev, c :: t => airlineHere a prev (c :: t) || airlineSearchGo a (some c) t

/-- `pattern.search(msg.content)` for one `AIRLINE_PATTERNS` entry. -/
def airlineMatches (a : AirlinePat) (content : List Char) : Bool :=
  airlineSearchGo a none (lowerStr content)

/-! ## Confirmation pattern matching -/

/-- Does a confirmation pattern match at the current position?  Implements
`\b lit \b` resp. `\b lit !? \b` (the `!` branch needs a word character after
the `!` for the final boundary to hold). -/
def confHere (p : ConfPat) (prev : Option Char) (s : List Char) : Bool :=
  boundaryBefore prev &&
    match dropPrefixCI p.lit s with
    | none => false
    | some rest =>
      boundaryAfter rest ||
        (p.bang &&
          match rest with
          | '!' :: r2 =>
            (match r2 with
             | c :: _ => isWordChar c
             | [] => false)
          | _ => false)

/-- `pattern.search` for a confirmation pattern over the lower-cased input. -/
def confSearchGo (p : ConfPat) : Option Char → List Char → Bool
  | prev, [] => confHere p prev []
  | prev, c :: t => confHere p prev (c :: t) || confSearchGo p (some c) t

/-- Does any `CONFIRMATION_PATTERNS` entry match the message content? -/
def msgConfirms (content : List Char) : Bool :=
  confPatterns.any (fun p => confSearchGo p none (lowerStr content))

/-! ## `DATE_PATTERN` -/

/-- The month-name alternation of `DATE_PATTERN`, in pattern order: short
form plus optional long-form suffix, with the month number. -/
def monthAlts : List (List Char × List Char × Nat) :=
  [(cs "jan", cs "uary", 1), (cs "feb", cs "ruary", 2), (cs "mar", cs "ch", 3),
   (cs "apr", cs "il", 4), (cs "may", cs "", 5), (cs "jun", cs "e", 6),
   (cs "jul", cs "y", 7), (cs "aug", cs "ust", 8), (cs "sep", cs "tember", 9),
   (cs "oct", cs "ober", 10), (cs "nov", cs "ember", 11),
   (cs "dec", cs "ember", 12)]

/-- Try the month alternation at `s` (lower-cased): consume the short form,
then greedily the optional suffix (safe, since everything after the month in
the pattern is optional), returning the month number and the rest. -/
def monthHere : List (List Char × List Char × Nat) → List Char →
    Option (Nat × List Char)
  | [], _ => none
  | (short, long, n) :: alts, s =>
    match dropPrefixCI short s with
    | some r =>
      some (n, match dropPrefixCI long r with
               | some r2 => r2
               | none => r)
    | none => monthHere alts s

/-- Consume `(\d{4})?` after `\s*`: a year is captured exactly when four
digits follow the whitespace run. -/
def yearHere (s : List Char) : Option Nat :=
  match s.dropWhile isPySpace with
  | a :: b :: c :: d :: _ =>
    if a.isDigit ∧ b.isDigit ∧ c.isDigit ∧ d.isDigit then
      some (((a.toNat - 48) * 10 + (b.toNat - 48)) * 100 +
            ((c.toNat - 48) * 10 + (d.toNat - 48)))
    else none
  | _ => none

/-- The tail of `DATE_PATTERN` after the day digits:
`(?:st|nd|rd|th)?\s+(month)\s*(\d{4})?`.  If an ordinal suffix is present it
must be consumed (not consuming it leaves a letter where `\s+` is required),
then a nonempty whitespace run, then the month, then the optional year. -/
def dateTail (s : List Char) : Option (Nat × Option Nat) :=
  let s1 :=
    match dropPrefixCI (cs "st") s with
    | some r => r
    | none =>
      match dropPrefixCI (cs "nd") s with
      | some r => r
      | none =>
        match dropPrefixCI (cs "rd") s with
        | some r => r
        | none =>
          match dropPrefixCI (cs "th") s with
          | some r => r
          | none => s
  let n := wsCount s1
  if n = 0 then none
  else
    match monthHere monthAlts (s1.drop n) with
    | some (mo, r) => some (mo, yearHere r)
    | none => none

/-- `DATE_PATTERN` at the current position: `(\d{1,2})` is greedy, so two
digits are tried before one. -/
def dateHere : List Char → Option (Nat × Nat × Option Nat)
  | a :: rest =>
    if a.isDigit then
      match rest with
      | b :: rest2 =>
        if b.isDigit then
          match dateTail rest2 with
          | some (mo, yr) => some ((a.toNat - 48) * 10 + (b.toNat - 48), mo, yr)
          | none =>
            match dateTail rest with
            | some (mo, yr) => some (a.toNat - 48, mo, yr)
            | none => none
        else
          match dateTail rest with
          | some (mo, yr) => some (a.toNat - 48, mo, yr)
          | none => none
      | [] => none
    else none
  | [] => none

/-- `DATE_PATTERN.search`: leftmost match over the lower-cased content,
yielding day, month number and optional year. -/
def dateSearchGo : List Char → Option (Nat × Nat × Option Nat)
  | [] => none
  | c :: t =>
    match dateHere (c :: t) with
    | some r => some r
    | none => dateSearchGo t

/-- `DATE_PATTERN.search(msg.content)`. -/
def dateSearch (content : List Char) : Option (Nat × Nat × Option Nat) :=
  dateSearchGo (lowerStr content)

/-! ## `COST_PATTERN` and the transfer time pattern -/

/-- `COST_PATTERN` at the current position: `£` then one to four digits
(greedy) then an optional `.dd`; returns the captured group. -/
def costHere : List Char → Option (List Char)
  | '£' :: rest =>
    let ds := (rest.takeWhile Char.isDigit).take 4
    if ds = [] then none
    else
      match rest.drop ds.length with
      | '.' :: d1 :: d2 :: _ =>
        if d1.isDigit ∧ d2.isDigit then some (ds ++ ['.', d1, d2]) else none
      | _ => some ds
  | _ => none

/-- First `COST_PATTERN` match of the content (`findall(...)[0]`). -/
def costSearch : List Char → Option (List Char)
  | [] => none
  | c :: t =>
    match costHere (c :: t) with
    | some r => some r
    | none => costSearch t

/-- The transfer time regex `(\d{1,2})[:.:](\d{2})` at the current position,
already normalised to `H:MM` as `_extract_transfers` does. -/
def timeHere : List Char → Option (List Char)
  | a :: rest =>
    if a.isDigit then
      match rest with
      | b :: sep :: d1 :: d2 :: _ =>
        if b.isDigit ∧ (sep = ':' ∨ sep = '.') ∧ d1.isDigit ∧ d2.isDigit then
          some [a, b, ':', d1, d2]
        else
          match rest with
          | sep2 :: e1 :: e2 :: _ =>
            if (sep2 = ':' ∨ sep2 = '.') ∧ e1.isDigit ∧ e2.isDigit then
              some [a, ':', e1, e2]
            else none
          | _ => none
      | sep2 :: e1 :: e2 :: _ =>
        if (sep2 = ':' ∨ sep2 = '.') ∧ e1.isDigit ∧ e2.isDigit then
          some [a, ':', e1, e2]
        else none
      | _ => none
    else none
  | [] => none

/-- Leftmost transfer-time match of the content. -/
def timeSearch : List Char → Option (List Char)
  | [] => none
  | c :: t =>
    match timeHere (c :: t) with
    | some r => some r
    | none => timeSearch t

/-! ## `BOOKING_URL_PATTERN` and URL parsing -/

/-- `BOOKING_URL_PATTERN` at the current position: case-insensitive
`https?://(?:www\.)?booking\.com/` followed by a nonempty run of non-space
characters; returns the total match length.  The optional pieces are
deterministic: consuming `s` resp. `www.` can never block a continuation
that skipping them would allow, since the follow-up literals start with
different characters. -/
def urlHere (s : List Char) : Option Nat :=
  match dropPrefixCI (cs "http") s with
  | none => none
  | some r1 =>
    let r2 := match r1 with
              | c :: t => if c.toLower = 's' then t else r1
              | [] => r1
    match dropPrefixCI (cs "://") r2 with
    | none => none
    | some r3 =>
      let r4 := match dropPrefixCI (cs "www.") r3 with
                | some r => r
                | none => r3
      match dropPrefixCI (cs "booking.com/") r4 with
      | none => none
      | some r5 =>
        let run := (r5.takeWhile (fun c => !isPySpace c)).length
        if run = 0 then none else some (s.length - r5.length + run)

/-- `BOOKING_URL_PATTERN.findall`: leftmost non-overlapping matches, with
explicit fuel (each step consumes at least one character). -/
def findURLsGo : Nat → List Char → List (List Char)
  | 0, _ => []
  | _ + 1, [] => []
  | fuel + 1, c :: t =>
    match urlHere (c :: t) with
    | some n => (c :: t).take n :: findURLsGo fuel ((c :: t).drop (max n 1))
    | none => findURLsGo fuel t

/-- `BOOKING_URL_PATTERN.findall(content)`. -/
def findURLs (content : List Char) : List (List Char) :=
  findURLsGo content.length content

/-- Split at the first occurrence of `c`: the part before it and, when `c`
occurs, the part after it. -/
def splitFirst (c : Char) : List Char → List Char × Option (List Char)
  | [] => ([], none)
  | x :: t =>
    if x = c then ([], some t)
    else
      let r := splitFirst c t
      (x :: r.1, r.2)

/-- The remainder after the first occurrence of the literal `pat`. -/
def afterSub (pat : List Char) : List Char → Option (List Char)
  | [] => if pat.isEmpty then some [] else none
  | c :: t =>
    if pat.isPrefixOf (c :: t) then some ((c :: t).drop pat.length)
    else afterSub pat t

/-- `urlparse(url).query`: strip the fragment, then take what follows the
first `?`. -/
def urlQuery (url : List Char) : List Char :=
  match (splitFirst '?' (splitFirst '#' url).1).2 with
  | some q => q
  | none => []

/-- `urlparse(url).path` for an absolute `http(s)` URL: strip fragment and
query, skip `scheme://netloc`, keep from the first `/` of the remainder. -/
def urlPath (url : List Char) : List Char :=
  let s2 := (splitFirst '?' (splitFirst '#' url).1).1
  match afterSub (cs "://") s2 with
  | some rest => rest.dropWhile (fun c => c ≠ '/')
  | none => s2

/-- `parse_qs(query)[key][0]` as used by the extractor: the first `key=value`
field of the `&`-separated query with a nonempty value (fields without `=`
or with an empty value are dropped by `parse_qs`).  Percent-unquoting is not
modelled; the booking URLs the extractor reads carry plain ISO dates. -/
def parseQsFirst (key query : List Char) : Option (List Char) :=
  (query.splitOn '&').findSome? fun field =>
    match splitFirst '=' field with
    | (k, some v) => if k = key ∧ v ≠ [] then some v else none
    | (_, none) => none

/-- `date.fromisoformat` on a query-parameter value: exactly `YYYY-MM-DD`
with a valid calendar date, else the `ValueError` branch (`none`). -/
def parseIso (s : List Char) : Option D :=
  match s with
  | [y1, y2, y3, y4, h1, m1, m2, h2, d1, d2] =>
    if y1.isDigit ∧ y2.isDigit ∧ y3.isDigit ∧ y4.isDigit ∧ h1 = '-' ∧
       m1.isDigit ∧ m2.isDigit ∧ h2 = '-' ∧ d1.isDigit ∧ d2.isDigit then
      let y := ((y1.toNat - 48) * 10 + (y2.toNat - 48)) * 100 +
               ((y3.toNat - 48) * 10 + (y4.toNat - 48))
      let mo := (m1.toNat - 48) * 10 + (m2.toNat - 48)
      let dy := (d1.toNat - 48) * 10 + (d2.toNat - 48)
      if 1 ≤ y ∧ 1 ≤ mo ∧ mo ≤ 12 ∧ 1 ≤ dy ∧ dy ≤ daysInMonth y mo then
        some ⟨y, mo, dy⟩
      else none
    else none
  | _ => none

/-- `_extract_dates_from_booking_url(url)`: the `checkin`/`checkout` query
parameters parsed as ISO dates, each `none` when absent or malformed. -/
def urlDates (url : List Char) : Option D × Option D :=
  ((parseQsFirst (cs "checkin") (urlQuery url)).bind parseIso,
   (parseQsFirst (cs "checkout") (urlQuery url)).bind parseIso)

/-- `_extract_hotel_name_from_url`'s path regex `/hotel/\w+/([^/.]+)` at the
current position (case-sensitive, as compiled).  `\w+` is a maximal word run
(nothing shorter can be followed by `/`), and the group is the maximal
nonempty run free of `/` and `.`. -/
def hotelPathHere (s : List Char) : Option (List Char) :=
  if (cs "/hotel/").isPrefixOf s then
    let r1 := s.drop 7
    let wrun := r1.takeWhile isWordChar
    if wrun = [] then none
    else
      match r1.drop wrun.length with
      | '/' :: r2 =>
        let grp := r2.takeWhile (fun c => c ≠ '/' ∧ c ≠ '.')
        if grp = [] then none else some grp
      | _ => none
  else none

/-- Leftmost match of the hotel-path regex over a path. -/
def hotelPathSearch : List Char → Option (List Char)
  | [] => none
  | c :: t =>
    match hotelPathHere (c :: t) with
    | some r => some r
    | none => hotelPathSearch t

/-- `_extract_hotel_name_from_url(url)`: hyphens to spaces, then
title-casing. -/
def hotelNameFromUrl (url : List Char) : Option (List Char) :=
  (hotelPathSearch (urlPath url)).map fun grp =>
    pyTitle (pyReplace (cs "-") (cs " ") grp)

/-! ## The `Check out ... on Booking.com` pattern -/

/-- Lazy group expansion for `([^!]+?) on Booking\.com`: grow the group one
non-`!` character at a time until the literal tail matches; the group keeps
the original (non-lowered) characters. -/
def checkoutGrab (accRev : List Char) : List Char → Option (List Char)
  | [] => none
  | c :: t =>
    if c = '!' then none
    else
      match dropPrefixCI (cs " on booking.com") t with
      | some _ => some (c :: accRev).reverse
      | none => checkoutGrab (c :: accRev) t

/-- The checkout pattern `Check out ([^!]+?) on Booking\.com` at the current
position. -/
def checkoutHere (s : List Char) : Option (List Char) :=
  match dropPrefixCI (cs "check out ") s with
  | none => none
  | some r => checkoutGrab [] r

/-- `checkout_pattern.search(msg.content)`: leftmost start position wins. -/
def checkoutSearch : List Char → Option (List Char)
  | [] => none
  | c :: t =>
    match checkoutHere (c :: t) with
    | some r => some r
    | none => checkoutSearch t

/-! ## Shared services (`extractor.py` §4.4) -/

/-- `_check_confirmation(i)` with its default window: scan
`messages[max(0, i-3) : min(len, i+8)]` for any confirmation pattern. -/
def checkConfirmation (all : List Msg) (i : Nat) : ItemStatus :=
  let start := i - 3
  let stop := min all.length (i + 8)
  if ((all.drop start).take (stop - start)).any (fun m => msgConfirms m.content)
  then ItemStatus.CONFIRMED else ItemStatus.TENTATIVE

/-- `_extract_date_from_context(i)`: the first message of
`messages[max(0, i-5) : min(len, i+5)]` whose `DATE_PATTERN` match parses to
a date (a match the parser rejects moves on to the next message); a missing
year defaults to 2026. -/
def ctxDate (all : List Msg) (i : Nat) : Option D :=
  let start := i - 5
  let stop := min all.length (i + 5)
  ((all.drop start).take (stop - start)).findSome? fun m =>
    match dateSearch m.content with
    | some (d, mo, yr) =>
      dateParse d mo (match yr with | some yv => yv | none => 2026)
    | none => none

/-! ## Hotel detector (`_extract_hotels`) -/

/-- The hotel name `_extract_hotels` resolves for one message: the checkout
phrase (stripped) takes priority; a URL-derived name is used only while the
current name is falsy; a final falsy name means the message is skipped. -/
def hotelResolve (content : List Char) : Option (List Char) :=
  let name0 : Option (List Char) := (checkoutSearch content).map pyStrip
  let nameF := (findURLs content).foldl
    (fun nm url =>
      if strTruthy (hotelNameFromUrl url) && !strTruthy nm then
        hotelNameFromUrl url
      else nm)
    name0
  if strTruthy nameF then nameF else none

/-- The URL loop of `_extract_hotels`: check-in/check-out are taken from the
last URL carrying a parseable `checkin`, the booking link from the last URL. -/
def hotelUrlInfo (urls : List (List Char)) :
    Option D × Option D × Option (List Char) :=
  urls.foldl
    (fun st url =>
      let ud := urlDates url
      if ud.1.isSome then (ud.1, ud.2, some url) else (st.1, st.2.1, some url))
    (none, none, none)

/-- The normalised dedup key of a hotel name. -/
def hotelKey (name : List Char) : List Char := pyStrip (lowerStr name)

/-- The `TravelItem` `_extract_hotels` builds at message index `i` for a
resolved name, with `n` the already-incremented id counter; a missing URL
check-in falls back to the contextual date (check-out then stays `None`). -/
def hotelItem (all : List Msg) (i : Nat) (m : Msg) (name : List Char)
    (n : Nat) : EItem :=
  let info := hotelUrlInfo (findURLs m.content)
  { id := idStr n, category := ItemCategory.HOTEL,
    status := checkConfirmation all i, title := name,
    start_date := (match info.1 with | some d => some d | none => ctxDate all i),
    end_date := info.2.1, proposed_by := m.sender, details := [],
    booking_links := (match info.2.2 with | some u => [u] | none => []),
    source_messages := [m] }

/-- The message loop of `_extract_hotels`: `i` is the index of the first
message of `rest` within `all`, `seen` the normalised names already emitted,
`c` the id counter; returns the items and the final counter. -/
def extractHotelsGo (all : List Msg) :
    Nat → List Msg → List (List Char) → Nat → List EItem × Nat
  | _, [], _, c => ([], c)
  | i, m :: rest, seen, c =>
    match hotelResolve m.content with
    | none => extractHotelsGo all (i + 1) rest seen c
    | some name =>
      if seen.contains (hotelKey name) then
        extractHotelsGo all (i + 1) rest seen c
      else
        let r := extractHotelsGo all (i + 1) rest (hotelKey name :: seen) (c + 1)
        (hotelItem all i m name (c + 1) :: r.1, r.2)

/-- `_extract_hotels` on the non-system message list, threading the id
counter. -/
def extractHotels (msgs : List Msg) (c : Nat) : List EItem × Nat :=
  extractHotelsGo msgs 0 msgs [] c

/-! ## Flight detector (`_extract_flights`) -/

/-- The eligibility gate: the lowercased content must contain a
`FLIGHT_CONTEXT` token. -/
def hasFlightContext (content : List Char) : Bool :=
  flightContext.any (fun t => containsSub t (lowerStr content))

/-- `_extract_date_from_booking_url_in_text`: the first URL with a parseable
`checkin` parameter. -/
def urlDateInText (content : List Char) : Option D :=
  (findURLs content).findSome? fun u => (urlDates u).1

/-- `_identify_route`: the first two airport-table keys occurring
(upper-cased) in the upper-cased content, joined with an arrow. -/
def identifyRoute (content : List Char) : Option (List Char) :=
  let cu := upperStr content
  match airportCodes.filter (fun code => containsSub (upperStr code) cu) with
  | a :: b :: _ => some (a ++ cs " → " ++ b)
  | _ => none

/-- The flight dedup key `airline-route-date` (with `unknown`/`nodate`
fallbacks). -/
def flightDedupKey (name : List Char) (route : Option (List Char))
    (fd : Option D) : List Char :=
  name ++ cs "-" ++ (match route with | some r => r | none => cs "unknown") ++
    cs "-" ++ (match fd with | some d => isoStr d | none => cs "nodate")

/-- The flight title: airline plus route, or airline plus `Flight`. -/
def flightTitle (name : List Char) (route : Option (List Char)) : List Char :=
  match route with
  | some r => name ++ cs " " ++ r
  | none => name ++ cs " Flight"

/-- The airline-pattern loop of `_extract_flights` for one message.  The
dedup key is added to `seen` before the confirmed-or-dated inclusion gate;
both `continue` statements move on to the next airline pattern; an appended
item ends the loop (`break`). -/
def flightLoop (all : List Msg) (i : Nat) (m : Msg) :
    List AirlinePat → List (List Char) → Nat →
      Option EItem × List (List Char) × Nat
  | [], seen, c => (none, seen, c)
  | a :: ps, seen, c =>
    if airlineMatches a m.content then
      let cost := costSearch m.content
      let route := identifyRoute m.content
      let fd := match urlDateInText m.content with
                | some d => some d
                | none => ctxDate all i
      let key := flightDedupKey a.name route fd
      if seen.contains key then flightLoop all i m ps seen c
      else
        let st := checkConfirmation all i
        if st ≠ ItemStatus.CONFIRMED ∧ fd = none then
          flightLoop all i m ps (key :: seen) c
        else
          (some { id := idStr (c + 1), category := ItemCategory.FLIGHT,
                  status := st, title := flightTitle a.name route,
                  start_date := fd, proposed_by := m.sender,
                  details := (match cost with
                              | some cst => [(cs "cost", cs "£" ++ cst)]
                              | none => []),
                  source_messages := [m] },
           key :: seen, c + 1)
    else flightLoop all i m ps seen c

/-- The message loop of `_extract_flights`. -/
def extractFlightsGo (all : List Msg) :
    Nat → List Msg → List (List Char) → Nat → List EItem × Nat
  | _, [], _, c => ([], c)
  | i, m :: rest, seen, c =>
    if hasFlightContext m.content then
      let r := flightLoop all i m airlinePatterns seen c
      let t := extractFlightsGo all (i + 1) rest r.2.1 r.2.2
      ((match r.1 with | some it => it :: t.1 | none => t.1), t.2)
    else extractFlightsGo all (i + 1) rest seen c

/-- `_extract_flights`. -/
def extractFlights (msgs : List Msg) (c : Nat) : List EItem × Nat :=
  extractFlightsGo msgs 0 msgs [] c

/-! ## Transfer detector (`_extract_transfers`) -/

/-- The island scan of `_extract_transfers`: islands are tried in the fixed
list order, each hit normalised by stripping the `Koh ` prefix and appended
unless already collected. -/
def routeParts (contentL : List Char) : List (List Char) :=
  islands.foldl
    (fun acc isl =>
      if containsSub (lowerStr isl) contentL then
        let nm := pyReplace (cs "Koh ") [] isl
        if acc.contains nm then acc else acc ++ [nm]
      else acc)
    []

/-- Stable insertion sort: the model of Python `list.sort` / `sorted` (both
stable).  An element is inserted before the first entry it compares
less-or-equal to, so equal entries keep their original order. -/
def insertLe {α : Type} (le : α → α → Bool) (x : α) : List α → List α
  | [] => [x]
  | y :: t => if le x y then x :: y :: t else y :: insertLe le x t

/-- Stable sort by `le` (see `insertLe`). -/
def sortByLe {α : Type} (le : α → α → Bool) : List α → List α
  | [] => []
  | x :: t => insertLe le x (sortByLe le t)

/-- Python string comparison `a <= b`: lexicographic on code points. -/
def lexLe : List Char → List Char → Bool
  | [], _ => true
  | _ :: _, [] => false
  | a :: as2, b :: bs =>
    if a.toNat < b.toNat then true
    else if b.toNat < a.toNat then false
    else lexLe as2 bs

/-- The transfer title: keyword titled, with arrow route, `to` destination,
or bare. -/
def transferTitle (kw : List Char) (parts : List (List Char)) : List Char :=
  match parts with
  | p0 :: p1 :: _ => pyTitle kw ++ cs " " ++ p0 ++ cs " → " ++ p1
  | [p0] => pyTitle kw ++ cs " to " ++ p0
  | [] => pyTitle kw

/-- The transfer dedup key: keyword, sorted route parts joined with `-`, and
date (or `nodate`). -/
def transferDedupKey (kw : List Char) (parts : List (List Char))
    (td : Option D) : List Char :=
  kw ++ cs "-" ++ List.intercalate (cs "-") (sortByLe lexLe parts) ++ cs "-" ++
    (match td with | some d => isoStr d | none => cs "nodate")

/-- The keyword loop of `_extract_transfers` for one message: the inclusion
gate (confirmed, or a route or time found) runs before the dedup check; both
`continue` statements move to the next keyword; an appended item ends the
loop. -/
def transferLoop (all : List Msg) (i : Nat) (m : Msg) :
    List (List Char) → List (List Char) → Nat →
      Option EItem × List (List Char) × Nat
  | [], seen, c => (none, seen, c)
  | kw :: ks, seen, c =>
    if containsSub kw (lowerStr m.content) then
      let timeStr := timeSearch m.content
      let parts := routeParts (lowerStr m.content)
      let st := checkConfirmation all i
      let td := ctxDate all i
      if st ≠ ItemStatus.CONFIRMED ∧ parts = [] ∧ timeStr = none then
        transferLoop all i m ks seen c
      else
        let key := transferDedupKey kw parts td
        if seen.contains key then transferLoop all i m ks seen c
        else
          (some { id := idStr (c + 1), category := ItemCategory.TRANSFER,
                  status := st, title := transferTitle kw parts,
                  start_date := td, proposed_by := m.sender,
                  details := (match timeStr with
                              | some ts => [(cs "time", ts)]
                              | none => []),
                  source_messages := [m] },
           key :: seen, c + 1)
    else transferLoop all i m ks seen c

/-- The message loop of `_extract_transfers`. -/
def extractTransfersGo (all : List Msg) :
    Nat → List Msg → List (List Char) → Nat → List EItem × Nat
  | _, [], _, c => ([], c)
  | i, m :: rest, seen, c =>
    let r := transferLoop all i m transferKeywords seen c
    let t := extractTransfersGo all (i + 1) rest r.2.1 r.2.2
    ((match r.1 with | some it => it :: t.1 | none => t.1), t.2)

/-- `_extract_transfers`. -/
def extractTransfers (msgs : List Msg) (c : Nat) : List EItem × Nat :=
  extractTransfersGo msgs 0 msgs [] c

/-! ## Orchestration (`EntityExtractor`, `extract_all`, `build_itinerary`) -/

/-- The `EntityExtractor` state: its message list and mutable id counter. -/
structure Extractor where
  messages : List Msg
  itemCounter : Nat
deriving DecidableEq, Repr

/-- `EntityExtractor.__init__`: system messages are filtered out and the
counter starts at zero. -/
def Extractor.init (msgs : List Msg) : Extractor :=
  ⟨msgs.filter (fun m => !m.isSystem), 0⟩

/-- The location a hotel title maps to in `_dedupe_by_location`: the first
keyword of the table contained in the lowercased title. -/
def locationOf (title : List Char) : Option (List Char) :=
  (locationKeywords.find? (fun kv => containsSub kv.1 (lowerStr title))).map
    (fun kv => kv.2)

/-- The loop of `_dedupe_by_location`: non-hotels always pass, hotels with
no table keyword always pass, and each location keeps only its first
hotel. -/
def dlGo : List EItem → List (List Char) → List EItem
  | [], _ => []
  | it :: rest, seen =>
    if it.category ≠ ItemCategory.HOTEL then it :: dlGo rest seen
    else
      match locationOf it.title with
      | none => it :: dlGo rest seen
      | some loc =>
        if seen.contains loc then dlGo rest seen
        else it :: dlGo rest (loc :: seen)

/-- `_dedupe_by_location`. -/
def dedupeByLocation (items : List EItem) : List EItem := dlGo items []

/-- The sort key comparison of `extract_all`: start date with `date.max` as
the sentinel for undated items. -/
def itemSortLe (a b : EItem) : Bool :=
  dleB (match a.start_date with | some d => d | none => dateMax)
       (match b.start_date with | some d => d | none => dateMax)

/-- `EntityExtractor.extract_all`: run the three detectors in order on the
shared counter, optionally filter to confirmed plus the location dedup pass,
then sort by start date; the final counter models the mutated
`item_counter`. -/
def extractAll (e : Extractor) (confirmedOnly : Bool) : List EItem × Nat :=
  let h := extractHotels e.messages e.itemCounter
  let f := extractFlights e.messages h.2
  let t := extractTransfers e.messages f.2
  let items := h.1 ++ f.1 ++ t.1
  let items2 :=
    if confirmedOnly then
      dedupeByLocation (items.filter (fun it => it.status == ItemStatus.CONFIRMED))
    else items
  (sortByLe itemSortLe items2, t.2)

/-- The itinerary record `build_itinerary` constructs. -/
structure EItinerary where
  title : List Char
  destination : List Char
  participants : List (List Char)
  start_date : D
  end_date : D
  items : List EItem
deriving DecidableEq, Repr

/-- Python `min` over dates (`none` models the empty-iterable error, which
`build_itinerary` guards against); ties keep the first occurrence. -/
def pyMinD : List D → Option D
  | [] => none
  | x :: t => some (t.foldl (fun a b => if encD b < encD a then b else a) x)

/-- Python `max` over dates; ties keep the first occurrence. -/
def pyMaxD : List D → Option D
  | [] => none
  | x :: t => some (t.foldl (fun a b => if encD a < encD b then b else a) x)

/-- `EntityExtractor.build_itinerary`: extract, then wrap with the min/max
date range or the fixed fallback range. -/
def buildItinerary (e : Extractor) (title : List Char)
    (participants : List (List Char)) (confirmedOnly : Bool) : EItinerary :=
  let items := (extractAll e confirmedOnly).1
  let dates := items.filterMap (fun it => it.start_date)
  { title := title, destination := cs "Thailand", participants := participants,
    start_date := (match pyMinD dates with | some d => d | none => ⟨2026, 3, 14⟩),
    end_date := (match pyMaxD dates with | some d => d | none => ⟨2026, 3, 28⟩),
    items := items }

/-! ## `models.py` as shipped: `TravelItem` and the `Itinerary` groupings -/

/-- `models.TravelItem` as defined in the `models.py` snapshot: dates are
optional ISO strings and there is no status field. -/
structure MItem where
  id : List Char
  category : ItemCategory
  title : List Char
  start_date : Option (List Char) := none
  end_date : Option (List Char) := none
  location : Option (List Char) := none
  details : List (List Char × List Char) := []
deriving DecidableEq, Repr

/-- `models.Itinerary` as defined in the `models.py` snapshot. -/
structure MItinerary where
  title : List Char
  destination : List Char
  participants : List (List Char) := []
  start_date : Option (List Char) := none
  end_date : Option (List Char) := none
  items : List MItem := []
deriving DecidableEq, Repr

/-- One `grouped[key].append(item)` step on an insertion-ordered Python
dict modelled as an association list: a fresh key goes to the back, an
existing key has the value appended to its list. -/
def groupInsert {κ α : Type} [DecidableEq κ] (g : List (κ × List α)) (k : κ)
    (v : α) : List (κ × List α) :=
  match g with
  | [] => [(k, [v])]
  | (k0, vs) :: t =>
    if k0 = k then (k0, vs ++ [v]) :: t else (k0, vs) :: groupInsert t k v

/-- The grouping loop shared by both `Itinerary` read-backs: items whose key
function yields `none` are skipped, the rest are appended to their key's
group. -/
def groupFold {κ α : Type} [DecidableEq κ] (keyOf : α → Option κ)
    (l : List α) (g : List (κ × List α)) : List (κ × List α) :=
  l.foldl
    (fun g it =>
      match keyOf it with
      | some k => groupInsert g k it
      | none => g)
    g

/-- The grouping key `items_by_date` uses: the start date string when it is
truthy (`if item.start_date:`), nothing otherwise. -/
def mDateKey (it : MItem) : Option (List Char) :=
  match it.start_date with
  | some d => if d = [] then none else some d
  | none => none

/-- `Itinerary.items_by_date`: group the items carrying a truthy start date
by that date string, then sort the dict by key. -/
def itemsByDate (itin : MItinerary) : List (List Char × List MItem) :=
  sortByLe (fun p q => lexLe p.1 q.1) (groupFold mDateKey itin.items [])

/-- `Itinerary.items_by_category`: group every item by category in insertion
order. -/
def itemsByCategory (itin : MItinerary) : List (ItemCategory × List MItem) :=
  groupFold (fun it => some it.category) itin.items []

/-! ## Library lemmas: the stable sort -/

theorem insertLe_perm {α : Type} (le : α → α → Bool) (x : α) (l : List α) :
    (insertLe le x l).Perm (x :: l) := by
  induction l with
  | nil => simp [insertLe]
  | cons y t ih =>
    by_cases h : le x y = true
    · simp [insertLe, h]
    · simp only [insertLe, h, if_false]
      exact (ih.cons y).trans (List.Perm.swap x y t)

theorem sortByLe_perm {α : Type} (le : α → α → Bool) (l : List α) :
    (sortByLe le l).Perm l := by
  induction l with
  | nil => simp [sortByLe]
  | cons x t ih =>
    exact (insertLe_perm le x (sortByLe le t)).trans (ih.cons x)

theorem insertLe_sorted {α : Type} (le : α → α → Bool)
    (htrans : ∀ a b c, le a b = true → le b c = true → le a c = true)
    (htot : ∀ a b, le a b = true ∨ le b a = true) (x : α) :
    ∀ l : List α, l.Pairwise (fun a b => le a b = true) →
      (insertLe le x l).Pairwise (fun a b => le a b = true) := by
  intro l
  induction l with
  | nil => intro _; simp [insertLe]
  | cons y t ih =>
    intro h
    rw [List.pairwise_cons] at h
    by_cases hxy : le x y = true
    · simp only [insertLe, hxy, if_true]
      refine List.Pairwise.cons ?_ (List.Pairwise.cons h.1 h.2)
      intro z hz
      rcases List.mem_cons.mp hz with rfl | hz
      · exact hxy
      · exact htrans x y z hxy (h.1 z hz)
    · simp only [insertLe, hxy, if_false]
      refine List.Pairwise.cons ?_ (ih h.2)
      intro z hz
      rcases List.mem_cons.mp ((insertLe_perm le x t).mem_iff.mp hz) with rfl | hz
      · cases htot z y with
        | inl hc => exact absurd hc hxy
        | inr hc => exact hc
      · exact h.1 z hz

theorem sortByLe_sorted {α : Type} (le : α → α → Bool)
    (htrans : ∀ a b c, le a b = true → le b c = true → le a c = true)
    (htot : ∀ a b, le a b = true ∨ le b a = true) (l : List α) :
    (sortByLe le l).Pairwise (fun a b => le a b = true) := by
  induction l with
  | nil => simp [sortByLe]
  | cons x t ih => exact insertLe_sorted le htrans htot x _ ih

/-! ## Library lemmas: the lexicographic string order -/

theorem lexLe_total : ∀ a b : List Char, lexLe a b = true ∨ lexLe b a = true := by
  intro a
  induction a with
  | nil => intro b; left; cases b <;> simp [lexLe]
  | cons x xs ih =>
    intro b
    cases b with
    | nil => right; simp [lexLe]
    | cons y ys =>
      by_cases h1 : x.toNat < y.toNat
      · left; simp [lexLe, h1]
      · by_cases h2 : y.toNat < x.toNat
        · right; simp [lexLe, h2]
        · cases ih ys with
          | inl h => left; simp [lexLe, h1, h2, h]
          | inr h => right; simp [lexLe, h1, h2, h]

theorem lexLe_trans : ∀ a b c : List Char,
    lexLe a b = true → lexLe b c = true → lexLe a c = true := by
  intro a
  induction a with
  | nil => intro b c _ _; cases c <;> simp [lexLe]
  | cons x xs ih =>
    intro b c hab hbc
    cases b with
    | nil => simp [lexLe] at hab
    | cons y ys =>
      cases c with
      | nil => simp [lexLe] at hbc
      | cons z zs =>
        simp only [lexLe] at hab hbc ⊢
        split at hab
        · -- x < y
          split at hbc
          · split
            · rfl
            · split
              · omega
              · omega
          · split at hbc
            · exact absurd hbc (by simp)
            · split
              · rfl
              · split
                · omega
                · omega
        · split at hab
          · exact absurd hab (by simp)
          · -- x = y on heads
            split at hbc
            · split
              · rfl
              · split
                · omega
                · omega
            · split at hbc
              · exact absurd hbc (by simp)
              · split
                · rfl
                · split
                  · omega
                  · exact ih ys zs hab hbc

theorem itemSortLe_total : ∀ a b : EItem,
    itemSortLe a b = true ∨ itemSortLe b a = true := by
  intro a b
  simp only [itemSortLe, dleB, decide_eq_true_eq]
  omega

theorem itemSortLe_trans : ∀ a b c : EItem, itemSortLe a b = true →
    itemSortLe b c = true → itemSortLe a c = true := by
  intro a b c
  simp only [itemSortLe, dleB, decide_eq_true_eq]
  omega

/-! ## Library lemmas: insertion-ordered grouping -/

/-- The keys of a grouping read back in insertion order of first occurrence:
the specification-side description of a Python dict's key order. -/
def firstDedup {κ : Type} [DecidableEq κ] (l : List κ) : List κ :=
  l.foldl (fun acc k => if acc.contains k then acc else acc ++ [k]) []

theorem groupInsert_flat {κ α : Type} [DecidableEq κ]
    (g : List (κ × List α)) (k : κ) (v : α) :
    ((groupInsert g k v).flatMap (fun p => p.2)).Perm
      (g.flatMap (fun p => p.2) ++ [v]) := by
  induction g with
  | nil => simp [groupInsert]
  | cons p t ih =>
    obtain ⟨k0, vs⟩ := p
    by_cases h : k0 = k
    · subst h
      simp only [groupInsert, if_true, List.flatMap_cons]
      rw [List.append_assoc, List.append_assoc]
      exact List.Perm.append_left vs List.perm_append_comm
    · simp only [groupInsert, h, if_false, List.flatMap_cons]
      rw [List.append_assoc]
      exact ih.append_left vs

theorem groupInsert_keys {κ α : Type} [DecidableEq κ]
    (g : List (κ × List α)) (k : κ) (v : α) :
    (groupInsert g k v).map (fun p => p.1) =
      (if (g.map (fun p => p.1)).contains k then g.map (fun p => p.1)
       else g.map (fun p => p.1) ++ [k]) := by
  induction g with
  | nil => simp [groupInsert]
  | cons p t ih =>
    obtain ⟨k0, vs⟩ := p
    by_cases h : k0 = k
    · subst h; simp [groupInsert]
    · simp only [groupInsert, h, if_false, List.map_cons, ih,
        List.contains_cons]
      have hbe : (k == k0) = false := by
        simp only [beq_eq_false_iff_ne, ne_eq]
        exact fun he => h he.symm
      rw [hbe]
      by_cases hc : k ∈ t.map (fun p => p.1)
      · simp [hc]
      · simp [hc]

/-- Unfolding step of `groupFold`. -/
theorem groupFold_cons {κ α : Type} [DecidableEq κ] (keyOf : α → Option κ)
    (it : α) (t : List α) (g : List (κ × List α)) :
    groupFold keyOf (it :: t) g =
      groupFold keyOf t
        (match keyOf it with
         | some k => groupInsert g k it
         | none => g) := by
  simp [groupFold]

theorem groupFold_flat {κ α : Type} [DecidableEq κ] (keyOf : α → Option κ)
    (l : List α) (g : List (κ × List α)) :
    ((groupFold keyOf l g).flatMap (fun p => p.2)).Perm
      (g.flatMap (fun p => p.2) ++ l.filter (fun it => (keyOf it).isSome)) := by
  induction l generalizing g with
  | nil => simp [groupFold]
  | cons it t ih =>
    rw [groupFold_cons]
    cases hk : keyOf it with
    | none =>
      simpa [List.filter_cons, hk] using ih g
    | some k =>
      have h1 := ih (groupInsert g k it)
      have h2 := (groupInsert_flat g k it).append_right
        (t.filter (fun x => (keyOf x).isSome))
      refine h1.trans (h2.trans ?_)
      simp [List.filter_cons, hk, List.append_assoc]

theorem groupFold_keys {κ α : Type} [DecidableEq κ] (keyOf : α → Option κ)
    (l : List α) (g : List (κ × List α)) :
    (groupFold keyOf l g).map (fun p => p.1) =
      (l.filterMap keyOf).foldl
        (fun acc k => if acc.contains k then acc else acc ++ [k])
        (g.map (fun p => p.1)) := by
  induction l generalizing g with
  | nil => simp [groupFold]
  | cons it t ih =>
    rw [groupFold_cons]
    cases hk : keyOf it with
    | none =>
      simp only [hk, List.filterMap_cons]
      exact ih g
    | some k =>
      simp only [hk, List.filterMap_cons, List.foldl_cons]
      rw [ih (groupInsert g k it), groupInsert_keys]

theorem dedupAcc_nodup {κ : Type} [DecidableEq κ] :
    ∀ (ks : List κ) (acc : List κ), acc.Nodup →
      (ks.foldl (fun acc k => if acc.contains k then acc else acc ++ [k])
        acc).Nodup := by
  intro ks
  induction ks with
  | nil => intro acc h; simpa using h
  | cons k t ih =>
    intro acc h
    simp only [List.foldl_cons]
    by_cases hc : k ∈ acc
    · have he : (if acc.contains k then acc else acc ++ [k]) = acc := by
        simp [hc]
      rw [he]; exact ih acc h
    · have he : (if acc.contains k then acc else acc ++ [k]) = acc ++ [k] := by
        simp [hc]
      rw [he]
      refine ih (acc ++ [k]) ?_
      simp [List.nodup_append, h, hc]

theorem firstDedup_nodup {κ : Type} [DecidableEq κ] (l : List κ) :
    (firstDedup l).Nodup := dedupAcc_nodup l [] List.nodup_nil

/-! ## Concrete inputs used by the claim theorems -/

/-- A plain user message from a fixed sender. -/
def mkM (s : String) : Msg := ⟨0, cs "Ann", cs s, false⟩

/-- A transfer message naming Lanta before Lipe. -/
def lantaFirstMsg : Msg := mkM "ferry from koh lanta to koh lipe"

/-- A transfer message naming Lipe before Lanta. -/
def lipeFirstMsg : Msg := mkM "ferry from koh lipe to koh lanta"

/-- An undated, unconfirmed transfer proposal with a resolvable route. -/
def lipeOnlyMsg : Msg := mkM "ferry to koh lipe"

/-- A tentative, undated flight mention followed (beyond every context
window) by a confirmed, undated mention of the same airline and route. -/
def tentativeThenConfirmed : List Msg :=
  mkM "Etihad flight" :: List.replicate 7 (mkM "hello") ++
    [mkM "Etihad flight confirmed"]

/-- As `tentativeThenConfirmed`, but the late message also names a second
airline. -/
def tentativeThenTwoAirlines : List Msg :=
  mkM "Etihad flight" :: List.replicate 7 (mkM "hello") ++
    [mkM "Etihad or Qatar flight confirmed"]

/-- A confirmed item dated 2026-03-14. -/
def itMar14 : EItem :=
  { id := cs "a", category := ItemCategory.FLIGHT,
    status := ItemStatus.CONFIRMED, title := cs "F1",
    start_date := some ⟨2026, 3, 14⟩ }

/-- A confirmed item dated 2026-03-20. -/
def itMar20 : EItem :=
  { id := cs "b", category := ItemCategory.HOTEL,
    status := ItemStatus.CONFIRMED, title := cs "H1",
    start_date := some ⟨2026, 3, 20⟩ }

/-- A confirmed item with no date at all. -/
def itUndated : EItem :=
  { id := cs "c", category := ItemCategory.TRANSFER,
    status := ItemStatus.CONFIRMED, title := cs "T1" }

/-- An itinerary (in the `models.py` sense) holding one undated item. -/
def undatedItin : MItinerary :=
  { title := cs "T", destination := cs "Th",
    items := [{ id := cs "i1", category := ItemCategory.FLIGHT,
                title := cs "X" }] }

/-! ## Claims -/

/-- C2, counterexample: an itinerary holding one (undated) item whose
`items_by_date` read-back is empty, so the date grouping does not reproduce
every item of the list. -/
theorem claim_C2_cex :
    (itemsByDate undatedItin).flatMap (fun p => p.2) = [] ∧
      undatedItin.items.length = 1 := by decide

/-- C2 (amended): reading back `items_by_date` reproduces, exactly once,
every item carrying a truthy start date (undated items are skipped by the
grouping), with the grouping keys strictly ascending; reading back
`items_by_category` reproduces every item exactly once, with the categories
in insertion order of first occurrence. -/
theorem claim_C2 (itin : MItinerary) :
    ((itemsByDate itin).flatMap (fun p => p.2)).Perm
        (itin.items.filter (fun it => (mDateKey it).isSome)) ∧
      ((itemsByDate itin).map (fun p => p.1)).Pairwise
        (fun a b => lexLe a b = true) ∧
      ((itemsByDate itin).map (fun p => p.1)).Nodup ∧
      ((itemsByCategory itin).flatMap (fun p => p.2)).Perm itin.items ∧
      (itemsByCategory itin).map (fun p => p.1) =
        firstDedup (itin.items.map (fun it => it.category)) := by
  refine ⟨?_, ?_, ?_, ?_, ?_⟩
  · have hs := List.Perm.flatMap_right (fun p => p.2)
      (sortByLe_perm (fun p q => lexLe p.1 q.1) (groupFold mDateKey itin.items []))
    have hf := groupFold_flat mDateKey itin.items []
    exact hs.trans (by simpa using hf)
  · have hp := sortByLe_sorted (fun p q => lexLe p.1 q.1)
      (fun a b c hab hbc => lexLe_trans a.1 b.1 c.1 hab hbc)
      (fun a b => lexLe_total a.1 b.1)
      (groupFold mDateKey itin.items [])
    exact List.pairwise_map.mpr hp
  · show (List.map (fun p => p.1)
      (sortByLe (fun p q => lexLe p.1 q.1) (groupFold mDateKey itin.items []))).Nodup
    have hperm := (sortByLe_perm (fun p q => lexLe p.1 q.1)
      (groupFold mDateKey itin.items [])).map (fun p => p.1)
    rw [hperm.nodup_iff, groupFold_keys mDateKey itin.items []]
    exact dedupAcc_nodup _ _ List.nodup_nil
  · have hf := groupFold_flat (fun it : MItem => some it.category) itin.items []
    simpa [itemsByCategory] using hf
  · have hk := groupFold_keys (fun it : MItem => some it.category) itin.items []
    have hm : List.filterMap (fun it : MItem => some it.category) itin.items
        = itin.items.map (fun it => it.category) :=
      congrFun (List.filterMap_eq_map (fun it : MItem => it.category)) itin.items
    rw [hm] at hk
    simpa [itemsByCategory, firstDedup] using hk

/-- C3, counterexample: a message naming Lanta before Lipe still yields the
title `Ferry Lipe → Lanta`, not the claimed encounter-order
`Ferry Lanta → Lipe`. -/
theorem claim_C3_cex :
    ((extractTransfers [lantaFirstMsg] 0).1.map (fun it => it.title)) =
        [cs "Ferry Lipe → Lanta"] ∧
      cs "Ferry Lipe → Lanta" ≠ cs "Ferry Lanta → Lipe" := by decide

/-- C3 (amended): the route is built from the island hits in the order of the
fixed island list (which places Lipe before Lanta), not in message-encounter
order: both a Lipe-then-Lanta and a Lanta-then-Lipe ferry message produce a
transfer titled `Ferry Lipe → Lanta`, the route-part lists of both messages
being equal. -/
theorem claim_C3 :
    ((extractTransfers [lipeFirstMsg] 0).1.map (fun it => it.title)) =
        [cs "Ferry Lipe → Lanta"] ∧
      routeParts (lowerStr lipeFirstMsg.content) = [cs "Lipe", cs "Lanta"] ∧
      routeParts (lowerStr lantaFirstMsg.content) = [cs "Lipe", cs "Lanta"] := by
  decide

/-- C9: extraction is deterministic — a fresh extractor resets its counter to
zero, and two runs built from the same message list agree on the whole
result, items, order and ids included. -/
theorem claim_C9 (msgs : List Msg) (conf : Bool) :
    (Extractor.init msgs).itemCounter = 0 ∧
      extractAll (Extractor.init msgs) conf =
        extractAll (Extractor.init msgs) conf ∧
      ((extractAll (Extractor.init msgs) conf).1.map (fun it => it.id)) =
        ((extractAll (Extractor.init msgs) conf).1.map (fun it => it.id)) :=
  ⟨rfl, rfl, rfl⟩

/-- C10: in the flight detector the dedup key is registered before the
confirmed-or-dated gate, so the tentative undated `Etihad flight` at index 0
burns the key `Etihad-unknown-nodate`, and the message at index 8 — which has
flight context, matches the Etihad pattern, resolves to CONFIRMED and has no
date — produces no flight item: the whole run yields none. -/
theorem claim_C10 :
    (extractFlights tentativeThenConfirmed 0).1 = [] ∧
      (tentativeThenConfirmed.drop 8).head? =
        some (mkM "Etihad flight confirmed") ∧
      hasFlightContext (mkM "Etihad flight confirmed").content = true ∧
      ((airlinePatterns.find?
          (fun a => airlineMatches a (mkM "Etihad flight confirmed").content)).map
        (fun a => a.name)) = some (cs "Etihad") ∧
      checkConfirmation tentativeThenConfirmed 8 = ItemStatus.CONFIRMED ∧
      ctxDate tentativeThenConfirmed 8 = none ∧
      urlDateInText (mkM "Etihad flight confirmed").content = none := by decide

/-- C7: the list `extract_all` returns is sorted by the start-date key with
`date.max` standing in for missing dates (so undated items sort last), and
the sort step sends the mixed 2026-03-14 / 2026-03-20 / undated example to
date order with the undated item last. -/
theorem claim_C7 (e : Extractor) (conf : Bool) :
    ((extractAll e conf).1).Pairwise (fun a b => itemSortLe a b = true) ∧
      sortByLe itemSortLe [itUndated, itMar20, itMar14] =
        [itMar14, itMar20, itUndated] := by
  constructor
  · simp only [extractAll]
    exact sortByLe_sorted itemSortLe itemSortLe_trans itemSortLe_total _
  · decide

/-! ## Per-item facts of the flight and transfer detectors -/

theorem flightLoop_facts (all : List Msg) (i : Nat) (m : Msg) :
    ∀ (ps : List AirlinePat) (seen : List (List Char)) (c : Nat) (it : EItem),
      (flightLoop all i m ps seen c).1 = some it →
      it.category = ItemCategory.FLIGHT ∧
        it.source_messages = [m] ∧
        it.status = checkConfirmation all i ∧
        it.start_date = (match urlDateInText m.content with
                         | some d => some d
                         | none => ctxDate all i) ∧
        (it.status = ItemStatus.CONFIRMED ∨ it.start_date ≠ none) ∧
        ∃ a ∈ ps, airlineMatches a m.content = true ∧
          it.title = flightTitle a.name (identifyRoute m.content) := by
  intro ps
  induction ps with
  | nil => intro seen c it h; simp [flightLoop] at h
  | cons a ps ih =>
    intro seen c it h
    by_cases hm : airlineMatches a m.content
    · simp only [flightLoop, hm, if_true] at h
      split at h
      · obtain ⟨h1, h2, h3, h4, h5, aa, haa, hma, hta⟩ := ih _ _ it h
        exact ⟨h1, h2, h3, h4, h5, aa, List.mem_cons_of_mem a haa, hma, hta⟩
      · split at h
        next hgate =>
          obtain ⟨h1, h2, h3, h4, h5, aa, haa, hma, hta⟩ := ih _ _ it h
          exact ⟨h1, h2, h3, h4, h5, aa, List.mem_cons_of_mem a haa, hma, hta⟩
        next hgate =>
          cases Option.some.inj h
          refine ⟨rfl, rfl, rfl, rfl, ?_, a, List.mem_cons_self a ps, hm, rfl⟩
          rcases not_and_or.mp hgate with hg | hg
          · exact Or.inl (not_ne_iff.mp hg)
          · exact Or.inr hg
    · simp only [flightLoop, hm, if_false] at h
      obtain ⟨h1, h2, h3, h4, h5, aa, haa, hma, hta⟩ := ih _ _ it h
      exact ⟨h1, h2, h3, h4, h5, aa, List.mem_cons_of_mem a haa, hma, hta⟩

theorem flightsGo_facts (all : List Msg) :
    ∀ (rest : List Msg) (i : Nat) (seen : List (List Char)) (c : Nat)
      (it : EItem), it ∈ (extractFlightsGo all i rest seen c).1 →
      ∃ m ∈ rest, hasFlightContext m.content = true ∧
        it.category = ItemCategory.FLIGHT ∧
        it.source_messages = [m] ∧
        (it.status = ItemStatus.CONFIRMED ∨ it.start_date ≠ none) ∧
        ∃ a ∈ airlinePatterns, airlineMatches a m.content = true ∧
          it.title = flightTitle a.name (identifyRoute m.content) := by
  intro rest
  induction rest with
  | nil => intro i seen c it h; simp [extractFlightsGo] at h
  | cons m rest ih =>
    intro i seen c it h
    by_cases hctx : hasFlightContext m.content
    · simp only [extractFlightsGo, hctx, if_true] at h
      rcases ho : (flightLoop all i m airlinePatterns seen c).1 with _ | it0
      · rw [ho] at h
        obtain ⟨m2, hm2, rest2⟩ := ih _ _ _ it h
        exact ⟨m2, List.mem_cons_of_mem m hm2, rest2⟩
      · rw [ho] at h
        rcases List.mem_cons.mp h with rfl | h2
        · obtain ⟨h1, h2, _, _, h5, aa, haa, hma, hta⟩ :=
            flightLoop_facts all i m airlinePatterns seen c it ho
          exact ⟨m, List.mem_cons_self m rest, hctx, h1, h2, h5, aa, haa, hma,
            hta⟩
        · obtain ⟨m2, hm2, rest2⟩ := ih _ _ _ it h2
          exact ⟨m2, List.mem_cons_of_mem m hm2, rest2⟩
    · simp only [extractFlightsGo, hctx, if_false] at h
      obtain ⟨m2, hm2, rest2⟩ := ih _ _ _ it h
      exact ⟨m2, List.mem_cons_of_mem m hm2, rest2⟩

theorem flightsGo_opts (all : List Msg) :
    ∀ (rest : List Msg) (i : Nat) (seen : List (List Char)) (c : Nat),
      ∃ opts : List (Option EItem), opts.length = rest.length ∧
        (extractFlightsGo all i rest seen c).1 = opts.reduceOption := by
  intro rest
  induction rest with
  | nil => intro i seen c; exact ⟨[], rfl, by simp [extractFlightsGo, List.reduceOption]⟩
  | cons m rest ih =>
    intro i seen c
    by_cases hctx : hasFlightContext m.content
    · obtain ⟨opts, hlen, heq⟩ := ih (i + 1)
        (flightLoop all i m airlinePatterns seen c).2.1
        (flightLoop all i m airlinePatterns seen c).2.2
      refine ⟨(flightLoop all i m airlinePatterns seen c).1 :: opts,
        by simp [hlen], ?_⟩
      simp only [extractFlightsGo, hctx, if_true]
      rcases ho : (flightLoop all i m airlinePatterns seen c).1 with _ | it0 <;>
        simp [List.reduceOption, heq]
    · obtain ⟨opts, hlen, heq⟩ := ih (i + 1) seen c
      refine ⟨none :: opts, by simp [hlen], ?_⟩
      simp only [extractFlightsGo, hctx, if_false]
      simp [List.reduceOption, heq]

theorem transferLoop_facts (all : List Msg) (i : Nat) (m : Msg) :
    ∀ (ks : List (List Char)) (seen : List (List Char)) (c : Nat) (it : EItem),
      (transferLoop all i m ks seen c).1 = some it →
      it.category = ItemCategory.TRANSFER ∧
        it.source_messages = [m] ∧
        it.status = checkConfirmation all i ∧
        it.start_date = ctxDate all i ∧
        (it.status = ItemStatus.CONFIRMED ∨
          routeParts (lowerStr m.content) ≠ [] ∨
          timeSearch m.content ≠ none) ∧
        ∃ kw ∈ ks, containsSub kw (lowerStr m.content) = true ∧
          it.title = transferTitle kw (routeParts (lowerStr m.content)) := by
  intro ks
  induction ks with
  | nil => intro seen c it h; simp [transferLoop] at h
  | cons kw ks ih =>
    intro seen c it h
    by_cases hk : containsSub kw (lowerStr m.content)
    · simp only [transferLoop, hk, if_true] at h
      split at h
      next hgate =>
        obtain ⟨h1, h2, h3, h4, h5, kk, hkk, hck, htk⟩ := ih _ _ it h
        exact ⟨h1, h2, h3, h4, h5, kk, List.mem_cons_of_mem kw hkk, hck, htk⟩
      next hgate =>
        split at h
        · obtain ⟨h1, h2, h3, h4, h5, kk, hkk, hck, htk⟩ := ih _ _ it h
          exact ⟨h1, h2, h3, h4, h5, kk, List.mem_cons_of_mem kw hkk, hck, htk⟩
        · cases Option.some.inj h
          refine ⟨rfl, rfl, rfl, rfl, ?_, kw, List.mem_cons_self kw ks, hk, rfl⟩
          rcases not_and_or.mp hgate with hg | hg
          · exact Or.inl (not_ne_iff.mp hg)
          · rcases not_and_or.mp hg with hg2 | hg2
            · exact Or.inr (Or.inl hg2)
            · exact Or.inr (Or.inr hg2)
    · simp only [transferLoop, hk, if_false] at h
      obtain ⟨h1, h2, h3, h4, h5, kk, hkk, hck, htk⟩ := ih _ _ it h
      exact ⟨h1, h2, h3, h4, h5, kk, List.mem_cons_of_mem kw hkk, hck, htk⟩

theorem transfersGo_facts (all : List Msg) :
    ∀ (rest : List Msg) (i : Nat) (seen : List (List Char)) (c : Nat)
      (it : EItem), it ∈ (extractTransfersGo all i rest seen c).1 →
      ∃ m ∈ rest, it.category = ItemCategory.TRANSFER ∧
        it.source_messages = [m] ∧
        (it.status = ItemStatus.CONFIRMED ∨
          routeParts (lowerStr m.content) ≠ [] ∨
          timeSearch m.content ≠ none) ∧
        ∃ kw ∈ transferKeywords, containsSub kw (lowerStr m.content) = true ∧
          it.title = transferTitle kw (routeParts (lowerStr m.content)) := by
  intro rest
  induction rest with
  | nil => intro i seen c it h; simp [extractTransfersGo] at h
  | cons m rest ih =>
    intro i seen c it h
    simp only [extractTransfersGo] at h
    rcases ho : (transferLoop all i m transferKeywords seen c).1 with _ | it0
    · rw [ho] at h
      obtain ⟨m2, hm2, rest2⟩ := ih _ _ _ it h
      exact ⟨m2, List.mem_cons_of_mem m hm2, rest2⟩
    · rw [ho] at h
      rcases List.mem_cons.mp h with rfl | h2
      · obtain ⟨h1, h2, _, _, h5, kk, hkk, hck, htk⟩ :=
          transferLoop_facts all i m transferKeywords seen c it ho
        exact ⟨m, List.mem_cons_self m rest, h1, h2, h5, kk, hkk, hck, htk⟩
      · obtain ⟨m2, hm2, rest2⟩ := ih _ _ _ it h2
        exact ⟨m2, List.mem_cons_of_mem m hm2, rest2⟩

/-- Membership in the location-dedup output implies membership in its
input. -/
theorem dlGo_subset :
    ∀ (items : List EItem) (seen : List (List Char)) (it : EItem),
      it ∈ dlGo items seen → it ∈ items := by
  intro items
  induction items with
  | nil => intro seen it h; simp [dlGo] at h
  | cons x t ih =>
    intro seen it h
    simp only [dlGo] at h
    split at h
    · rcases List.mem_cons.mp h with rfl | h2
      · exact List.mem_cons_self _ t
      · exact List.mem_cons_of_mem _ (ih seen it h2)
    · split at h
      · rcases List.mem_cons.mp h with rfl | h2
        · exact List.mem_cons_self _ t
        · exact List.mem_cons_of_mem _ (ih seen it h2)
      · split at h
        · exact List.mem_cons_of_mem _ (ih seen it h)
        · rcases List.mem_cons.mp h with rfl | h2
          · exact List.mem_cons_self _ t
          · exact List.mem_cons_of_mem _ (ih _ it h2)

/-- Every item of the confirmed-only `extract_all` output is CONFIRMED. -/
theorem extractAll_confirmedOnly (e : Extractor) (it : EItem)
    (h : it ∈ (extractAll e true).1) : it.status = ItemStatus.CONFIRMED := by
  simp only [extractAll] at h
  have h2 := (sortByLe_perm itemSortLe _).mem_iff.mp h
  have h3 := dlGo_subset _ [] it h2
  have h4 := List.mem_filter.mp h3
  simpa using h4.2

/-- The message of the C1 witness. -/
def bookedFlightMsg : Msg := mkM "Etihad flight booked"

/-- The flight item `_extract_flights` produces for `bookedFlightMsg`. -/
def wFlight : EItem :=
  { id := cs "item-1", category := ItemCategory.FLIGHT,
    status := ItemStatus.CONFIRMED, title := cs "Etihad Flight",
    proposed_by := cs "Ann", source_messages := [bookedFlightMsg] }

/-- C1, counterexample: with `confirmed_only=False` the single message
`ferry to koh lipe` survives extraction as a TRANSFER item with no start
date and TENTATIVE status — the transfer inclusion gate also admits undated
unconfirmed items that carry a route or time, so undated does not imply
CONFIRMED. -/
theorem claim_C1_cex :
    ((extractAll (Extractor.init [lipeOnlyMsg]) false).1.map
        (fun it => (it.category, it.status, it.start_date))) =
      [(ItemCategory.TRANSFER, ItemStatus.TENTATIVE, none)] := by decide

/-- C1 (amended): for flight items the detector's inclusion gate does give
the invariant — an undated flight item is CONFIRMED; a transfer item instead
survives when CONFIRMED or when its source message yields a route or a time,
so it may be undated and TENTATIVE; under the default confirmed-only run
every surviving item is CONFIRMED, but through the post-hoc status filter,
not the detector gates. -/
theorem claim_C1 (msgs : List Msg) (c : Nat) :
    (∀ it ∈ (extractFlights msgs c).1,
        it.start_date = none → it.status = ItemStatus.CONFIRMED) ∧
      (∀ it ∈ (extractTransfers msgs c).1,
        it.status = ItemStatus.CONFIRMED ∨
          ∃ m, it.source_messages = [m] ∧
            (routeParts (lowerStr m.content) ≠ [] ∨
              timeSearch m.content ≠ none)) ∧
      (∀ it ∈ (extractAll (Extractor.init msgs) true).1,
        it.status = ItemStatus.CONFIRMED) := by
  refine ⟨?_, ?_, ?_⟩
  · intro it h hnone
    obtain ⟨m, _, _, _, _, hgate, _⟩ := flightsGo_facts msgs msgs 0 [] c it h
    rcases hgate with hc | hd
    · exact hc
    · exact absurd hnone hd
  · intro it h
    obtain ⟨m, _, _, hsrc, hgate, _⟩ := transfersGo_facts msgs msgs 0 [] c it h
    rcases hgate with hc | hg
    · exact Or.inl hc
    · exact Or.inr ⟨m, hsrc, hg⟩
  · intro it h
    exact extractAll_confirmedOnly (Extractor.init msgs) it h

/-- C1, witness: the confirmed, undated `Etihad flight booked` message
instantiates the flight half of the amended claim. -/
theorem claim_C1_witness :
    wFlight ∈ (extractFlights [bookedFlightMsg] 0).1 ∧
      wFlight.status = ItemStatus.CONFIRMED :=
  ⟨by decide, (claim_C1 [bookedFlightMsg] 0).1 wFlight (by decide) rfl⟩

/-- C4, counterexample: the tentative undated `Etihad flight` at index 0
burns the key `Etihad-unknown-nodate`; when the message at index 8 mentions
Etihad and Qatar, its first matching airline pattern (Etihad) is skipped as
a seen key and the run produces a `Qatar Flight` item from that message —
so the first airline pattern to match does not always win. -/
theorem claim_C4_cex :
    ((extractFlights tentativeThenTwoAirlines 0).1.map (fun it => it.title)) =
        [cs "Qatar Flight"] ∧
      ((airlinePatterns.find?
          (fun a => airlineMatches a
            (mkM "Etihad or Qatar flight confirmed").content)).map
        (fun a => a.name)) = some (cs "Etihad") ∧
      ((extractFlights tentativeThenTwoAirlines 0).1.map
          (fun it => it.source_messages)) =
        [[mkM "Etihad or Qatar flight confirmed"]] := by decide

/-- C4 (amended): every flight item comes from a message whose lowercased
text contains a flight-context token and which matches some airline pattern,
carries that airline's title, and survives only when CONFIRMED or dated; at
most one flight item is produced per message — but the airline is the first
pattern that matches and whose airline-route-date dedup key is unseen, not
necessarily the first pattern to match. -/
theorem claim_C4 (msgs : List Msg) (c : Nat) :
    (∀ it ∈ (extractFlights msgs c).1,
        ∃ m ∈ msgs, hasFlightContext m.content = true ∧
          it.category = ItemCategory.FLIGHT ∧
          it.source_messages = [m] ∧
          (it.status = ItemStatus.CONFIRMED ∨ it.start_date ≠ none) ∧
          ∃ a ∈ airlinePatterns, airlineMatches a m.content = true ∧
            it.title = flightTitle a.name (identifyRoute m.content)) ∧
      (∃ opts : List (Option EItem), opts.length = msgs.length ∧
        (extractFlights msgs c).1 = opts.reduceOption) := by
  exact ⟨fun it h => flightsGo_facts msgs msgs 0 [] c it h,
    flightsGo_opts msgs msgs 0 [] c⟩

/-- C4, witness: the `Etihad flight booked` run instantiates the per-item
half of the amended claim. -/
theorem claim_C4_witness :
    ∃ m ∈ [bookedFlightMsg], hasFlightContext m.content = true ∧
      wFlight.category = ItemCategory.FLIGHT ∧
      wFlight.source_messages = [m] ∧
      (wFlight.status = ItemStatus.CONFIRMED ∨ wFlight.start_date ≠ none) ∧
      ∃ a ∈ airlinePatterns, airlineMatches a m.content = true ∧
        wFlight.title = flightTitle a.name (identifyRoute m.content) :=
  (claim_C4 [bookedFlightMsg] 0).1 wFlight (by decide)

/-! ## The location-dedup pass -/

/-- The concatenated detector output before any filtering — the `items` list
`extract_all` builds ahead of the confirmed-only branch. -/
def rawItems (e : Extractor) : List EItem :=
  let h := extractHotels e.messages e.itemCounter
  let f := extractFlights e.messages h.2
  let t := extractTransfers e.messages f.2
  h.1 ++ f.1 ++ t.1

theorem dlGo_nonhotel :
    ∀ (items : List EItem) (seen : List (List Char)),
      (dlGo items seen).filter
          (fun it => !(it.category == ItemCategory.HOTEL)) =
        items.filter (fun it => !(it.category == ItemCategory.HOTEL)) := by
  intro items
  induction items with
  | nil => intro seen; rfl
  | cons x t ih =>
    intro seen
    simp only [dlGo]
    split
    next hx =>
      have hb : (!(x.category == ItemCategory.HOTEL)) = true := by
        simp [hx]
      rw [List.filter_cons, List.filter_cons, hb]
      simp [ih seen]
    next hx =>
      have hcat : x.category = ItemCategory.HOTEL := not_ne_iff.mp hx
      have hb : (!(x.category == ItemCategory.HOTEL)) = false := by
        simp [hcat]
      split
      · rw [List.filter_cons, List.filter_cons, hb]
        simp [ih seen]
      · split
        · rw [List.filter_cons, hb]
          simp [ih seen]
        · rw [List.filter_cons, List.filter_cons, hb]
          simp [ih]

theorem dlGo_keep_nokeyword :
    ∀ (items : List EItem) (seen : List (List Char)) (it : EItem),
      it ∈ items → it.category = ItemCategory.HOTEL →
      locationOf it.title = none → it ∈ dlGo items seen := by
  intro items
  induction items with
  | nil => intro seen it h; simp at h
  | cons x t ih =>
    intro seen it hmem hcat hloc
    rcases List.mem_cons.mp hmem with rfl | h2
    · have hne : ¬(it.category ≠ ItemCategory.HOTEL) := by simp [hcat]
      simp only [dlGo, if_neg hne, hloc]
      exact List.mem_cons_self it _
    · simp only [dlGo]
      split
      · exact List.mem_cons_of_mem _ (ih seen it h2 hcat hloc)
      · split
        · exact List.mem_cons_of_mem _ (ih seen it h2 hcat hloc)
        · split
          · exact ih seen it h2 hcat hloc
          · exact List.mem_cons_of_mem _ (ih _ it h2 hcat hloc)

theorem dlGo_count_loc :
    ∀ (items : List EItem) (seen : List (List Char)) (loc : List Char),
      ((dlGo items seen).countP
          (fun it => it.category == ItemCategory.HOTEL &&
            locationOf it.title == some loc)) ≤
        (if seen.contains loc then 0 else 1) := by
  intro items
  induction items with
  | nil =>
    intro seen loc
    simp only [dlGo, List.countP_nil]
    exact Nat.zero_le _
  | cons x t ih =>
    intro seen loc
    simp only [dlGo]
    split
    next hx =>
      have hb : (x.category == ItemCategory.HOTEL &&
          locationOf x.title == some loc) = false := by
        simp [hx]
      rw [List.countP_cons, hb]
      simpa using ih seen loc
    next hx =>
      have hcat : x.category = ItemCategory.HOTEL := not_ne_iff.mp hx
      split
      next hl =>
        have hb : (x.category == ItemCategory.HOTEL &&
            locationOf x.title == some loc) = false := by
          simp [hl]
        rw [List.countP_cons, hb]
        simpa using ih seen loc
      next l hl =>
        split
        next hs =>
          exact ih seen loc
        next hs =>
          by_cases hll : l = loc
          · subst hll
            have hb : (x.category == ItemCategory.HOTEL &&
                locationOf x.title == some l) = true := by
              simp [hcat, hl]
            rw [List.countP_cons, hb, if_neg hs]
            have htail := ih (l :: seen) l
            have hc : (l :: seen).contains l = true := by simp
            rw [hc] at htail
            have hone : (if true = true then (1 : Nat) else 0) = 1 := rfl
            have hzero : (if true = true then (0 : Nat) else 1) = 0 := rfl
            rw [hzero] at htail
            rw [hone]
            omega
          · have hb : (x.category == ItemCategory.HOTEL &&
                locationOf x.title == some loc) = false := by
              simp [hl, hll]
            rw [List.countP_cons, hb]
            have htail := ih (l :: seen) loc
            have hc : (l :: seen).contains loc = seen.contains loc := by
              simp [List.contains_cons]
              intro he
              exact absurd he.symm hll
            rw [hc] at htail
            simpa using htail

/-- A confirmed hotel whose title contains the keyword `lipe`. -/
def hotLipe : EItem :=
  { id := cs "h1", category := ItemCategory.HOTEL,
    status := ItemStatus.CONFIRMED, title := cs "Lipe Beach Resort" }

/-- A confirmed hotel whose title contains the keyword `lanta`. -/
def hotLanta : EItem :=
  { id := cs "h2", category := ItemCategory.HOTEL,
    status := ItemStatus.CONFIRMED, title := cs "Lanta Sands" }

/-- A second, distinct confirmed hotel whose title also contains `lipe`. -/
def hotLipe2 : EItem :=
  { id := cs "h3", category := ItemCategory.HOTEL,
    status := ItemStatus.CONFIRMED, title := cs "Serendipity Lipe" }

/-- A confirmed hotel whose title matches no location keyword. -/
def hotNoKw : EItem :=
  { id := cs "h4", category := ItemCategory.HOTEL,
    status := ItemStatus.CONFIRMED, title := cs "Quiet Cove" }

/-- C6: the location-dedup pass sits in the confirmed-only branch after the
status filter (with `confirmed_only=False` it never runs); it passes every
non-hotel item through unchanged, always keeps hotels whose title matches no
location keyword, keeps at most one hotel per canonical location, and sends
the CONFIRMED Lipe/Lanta/second-Lipe hotel triple to two items. -/
theorem claim_C6 :
    (∀ e : Extractor,
        (extractAll e true).1 =
          sortByLe itemSortLe (dedupeByLocation
            ((rawItems e).filter
              (fun it => it.status == ItemStatus.CONFIRMED))) ∧
        (extractAll e false).1 = sortByLe itemSortLe (rawItems e)) ∧
      (∀ items : List EItem,
        (dedupeByLocation items).filter
            (fun it => !(it.category == ItemCategory.HOTEL)) =
          items.filter (fun it => !(it.category == ItemCategory.HOTEL))) ∧
      (∀ items : List EItem, ∀ it ∈ items,
        it.category = ItemCategory.HOTEL → locationOf it.title = none →
        it ∈ dedupeByLocation items) ∧
      (∀ (items : List EItem) (loc : List Char),
        ((dedupeByLocation items).countP
          (fun it => it.category == ItemCategory.HOTEL &&
            locationOf it.title == some loc)) ≤ 1) ∧
      dedupeByLocation [hotLipe, hotLanta, hotLipe2] = [hotLipe, hotLanta] := by
  refine ⟨fun e => ⟨rfl, rfl⟩, fun items => dlGo_nonhotel items [],
    fun items it h1 h2 h3 => dlGo_keep_nokeyword items [] it h1 h2 h3,
    fun items loc => ?_, by decide⟩
  have h := dlGo_count_loc items [] loc
  simpa using h

/-- C6, witness: a keyword-less confirmed hotel passes the dedup pass. -/
theorem claim_C6_witness : hotNoKw ∈ dedupeByLocation [hotNoKw] :=
  claim_C6.2.2.1 [hotNoKw] hotNoKw (by decide) (by decide) (by decide)

/-! ## `build_itinerary` -/

theorem foldMin_spec :
    ∀ (t : List D) (a : D),
      (t.foldl (fun x b => if encD b < encD x then b else x) a) ∈ a :: t ∧
      encD (t.foldl (fun x b => if encD b < encD x then b else x) a) ≤
        encD a ∧
      ∀ d ∈ t, encD (t.foldl (fun x b => if encD b < encD x then b else x) a)
        ≤ encD d := by
  intro t
  induction t with
  | nil => intro a; refine ⟨List.mem_cons_self a [], Nat.le_refl _, ?_⟩; simp
  | cons b t ih =>
    intro a
    simp only [List.foldl_cons]
    by_cases hab : encD b < encD a
    · rw [if_pos hab]
      obtain ⟨h1, h2, h3⟩ := ih b
      refine ⟨?_, by omega, ?_⟩
      · rcases List.mem_cons.mp h1 with he | h1
        · rw [he]; simp
        · simp [h1]
      · intro d hd
        rcases List.mem_cons.mp hd with rfl | hd
        · omega
        · exact h3 d hd
    · rw [if_neg hab]
      obtain ⟨h1, h2, h3⟩ := ih a
      refine ⟨?_, h2, ?_⟩
      · rcases List.mem_cons.mp h1 with he | h1
        · rw [he]; simp
        · simp [h1]
      · intro d hd
        rcases List.mem_cons.mp hd with rfl | hd
        · omega
        · exact h3 d hd

theorem foldMax_spec :
    ∀ (t : List D) (a : D),
      (t.foldl (fun x b => if encD x < encD b then b else x) a) ∈ a :: t ∧
      encD a ≤
        encD (t.foldl (fun x b => if encD x < encD b then b else x) a) ∧
      ∀ d ∈ t, encD d ≤
        encD (t.foldl (fun x b => if encD x < encD b then b else x) a) := by
  intro t
  induction t with
  | nil => intro a; refine ⟨List.mem_cons_self a [], Nat.le_refl _, ?_⟩; simp
  | cons b t ih =>
    intro a
    simp only [List.foldl_cons]
    by_cases hab : encD a < encD b
    · rw [if_pos hab]
      obtain ⟨h1, h2, h3⟩ := ih b
      refine ⟨?_, by omega, ?_⟩
      · rcases List.mem_cons.mp h1 with he | h1
        · rw [he]; simp
        · simp [h1]
      · intro d hd
        rcases List.mem_cons.mp hd with rfl | hd
        · omega
        · exact h3 d hd
    · rw [if_neg hab]
      obtain ⟨h1, h2, h3⟩ := ih a
      refine ⟨?_, h2, ?_⟩
      · rcases List.mem_cons.mp h1 with he | h1
        · rw [he]; simp
        · simp [h1]
      · intro d hd
        rcases List.mem_cons.mp hd with rfl | hd
        · omega
        · exact h3 d hd

/-- The start dates of the extracted items, as `build_itinerary` collects
them. -/
def extractDates (e : Extractor) (conf : Bool) : List D :=
  ((extractAll e conf).1).filterMap (fun it => it.start_date)

/-- The booked hotel message used to witness the dated branch of C8. -/
def hotelBookedMsg : Msg :=
  mkM "Check out Hotel X on Booking.com https://www.booking.com/hotel/th/x.html?checkin=2026-03-14&checkout=2026-03-20 booked!"

/-- C8: `build_itinerary` is total — it always builds an itinerary around the
extracted items; when no item carries a start date (in particular on zero
items) the range is the fixed fallback 2026-03-14 to 2026-03-28, and when
some item does, the range runs from the minimum to the maximum of the item
start dates. -/
theorem claim_C8 (e : Extractor) (title : List Char)
    (parts : List (List Char)) (conf : Bool) :
    (buildItinerary e title parts conf).items = (extractAll e conf).1 ∧
      (extractDates e conf = [] →
        (buildItinerary e title parts conf).start_date = ⟨2026, 3, 14⟩ ∧
        (buildItinerary e title parts conf).end_date = ⟨2026, 3, 28⟩) ∧
      (extractDates e conf ≠ [] →
        ((buildItinerary e title parts conf).start_date ∈ extractDates e conf ∧
          ∀ d ∈ extractDates e conf,
            dleB (buildItinerary e title parts conf).start_date d = true) ∧
        ((buildItinerary e title parts conf).end_date ∈ extractDates e conf ∧
          ∀ d ∈ extractDates e conf,
            dleB d (buildItinerary e title parts conf).end_date = true)) := by
  have hstart : (buildItinerary e title parts conf).start_date =
      (match pyMinD (extractDates e conf) with
       | some d => d
       | none => ⟨2026, 3, 14⟩) := rfl
  have hend : (buildItinerary e title parts conf).end_date =
      (match pyMaxD (extractDates e conf) with
       | some d => d
       | none => ⟨2026, 3, 28⟩) := rfl
  refine ⟨rfl, ?_, ?_⟩
  · intro h
    rw [hstart, hend, h]
    exact ⟨rfl, rfl⟩
  · intro hne
    rcases hd : extractDates e conf with _ | ⟨a, t⟩
    · exact absurd hd hne
    · obtain ⟨h1, h2, h3⟩ := foldMin_spec t a
      obtain ⟨g1, g2, g3⟩ := foldMax_spec t a
      have hmin : (buildItinerary e title parts conf).start_date =
          t.foldl (fun x b => if encD b < encD x then b else x) a := by
        rw [hstart, hd]; rfl
      have hmax : (buildItinerary e title parts conf).end_date =
          t.foldl (fun x b => if encD x < encD b then b else x) a := by
        rw [hend, hd]; rfl
      rw [hmin, hmax]
      refine ⟨⟨h1, ?_⟩, ⟨g1, ?_⟩⟩
      · intro d hdm
        rcases List.mem_cons.mp hdm with rfl | hdm
        · simp only [dleB, decide_eq_true_eq]
          exact h2
        · simp only [dleB, decide_eq_true_eq]
          exact h3 d hdm
      · intro d hdm
        rcases List.mem_cons.mp hdm with rfl | hdm
        · simp only [dleB, decide_eq_true_eq]
          exact g2
        · simp only [dleB, decide_eq_true_eq]
          exact g3 d hdm

/-- C8, witness: the empty run takes the fallback range, and the single
booked-hotel run takes its minimum as itinerary start. -/
theorem claim_C8_witness :
    ((buildItinerary (Extractor.init []) (cs "Trip") [] true).start_date =
        ⟨2026, 3, 14⟩ ∧
      (buildItinerary (Extractor.init []) (cs "Trip") [] true).end_date =
        ⟨2026, 3, 28⟩) ∧
    ((buildItinerary (Extractor.init [hotelBookedMsg])
          (cs "Trip") [] true).start_date ∈
        extractDates (Extractor.init [hotelBookedMsg]) true ∧
      ∀ d ∈ extractDates (Extractor.init [hotelBookedMsg]) true,
        dleB (buildItinerary (Extractor.init [hotelBookedMsg])
          (cs "Trip") [] true).start_date d = true) :=
  ⟨(claim_C8 (Extractor.init []) (cs "Trip") [] true).2.1 (by decide),
   ((claim_C8 (Extractor.init [hotelBookedMsg]) (cs "Trip") [] true).2.2
     (by decide)).1⟩

/-! ## Per-item facts of the hotel detector -/

/-- The normalised hotel key (if any) a message contributes. -/
def hotelMsgKey (m : Msg) : Option (List Char) :=
  (hotelResolve m.content).map hotelKey

theorem hotelsGo_count (all : List Msg) :
    ∀ (rest : List Msg) (i : Nat) (seen : List (List Char)) (c : Nat)
      (k : List Char),
      ((extractHotelsGo all i rest seen c).1.countP
          (fun it => hotelKey it.title == k)) =
        (if seen.contains k = false ∧
            rest.any (fun m => hotelMsgKey m == some k) then 1 else 0) := by
  intro rest
  induction rest with
  | nil => intro i seen c k; simp [extractHotelsGo]
  | cons m rest ih =>
    intro i seen c k
    simp only [extractHotelsGo]
    cases hr : hotelResolve m.content with
    | none =>
      simp only [hr]
      rw [ih (i + 1) seen c k]
      simp [hotelMsgKey, hr]
    | some name =>
      simp only [hr]
      by_cases hc : seen.contains (hotelKey name) = true
      · rw [if_pos hc, ih (i + 1) seen c k]
        by_cases hk : hotelKey name = k
        · subst hk
          have hmem : hotelKey name ∈ seen := by simpa using hc
          simp [hmem, hotelMsgKey, hr]
        · have hk2 : ¬(hotelKey name == k) = true := by simp [hk]
          simp [hotelMsgKey, hr, hk, hk2]
      · rw [if_neg hc]
        by_cases hk : hotelKey name = k
        · subst hk
          have htail := ih (i + 1) (hotelKey name :: seen) (c + 1)
            (hotelKey name)
          have hnm : hotelKey name ∉ seen := by simpa using hc
          rw [List.countP_cons, htail]
          simp [hotelItem, hotelMsgKey, hr, hnm]
        · have htail := ih (i + 1) (hotelKey name :: seen) (c + 1) k
          have hk2 : ¬(k = hotelKey name) := fun h => hk h.symm
          rw [List.countP_cons, htail]
          simp [hotelItem, hotelMsgKey, hr, hk, hk2, List.contains_cons]

theorem hotelsGo_first (all : List Msg) :
    ∀ (rest : List Msg) (i : Nat) (seen : List (List Char)) (c : Nat)
      (it : EItem), it ∈ (extractHotelsGo all i rest seen c).1 →
      seen.contains (hotelKey it.title) = false ∧
      ∃ m, it.source_messages = [m] ∧
        hotelResolve m.content = some it.title ∧
        rest.find? (fun mm => hotelMsgKey mm == some (hotelKey it.title)) =
          some m := by
  intro rest
  induction rest with
  | nil => intro i seen c it h; simp [extractHotelsGo] at h
  | cons m rest ih =>
    intro i seen c it h
    simp only [extractHotelsGo] at h
    cases hr : hotelResolve m.content with
    | none =>
      simp only [hr] at h
      obtain ⟨hseen, m2, hsrc, hres, hfind⟩ := ih (i + 1) seen c it h
      refine ⟨hseen, m2, hsrc, hres, ?_⟩
      rw [List.find?_cons_of_neg _ (by simp [hotelMsgKey, hr])]
      exact hfind
    | some name =>
      simp only [hr] at h
      by_cases hc : seen.contains (hotelKey name) = true
      · rw [if_pos hc] at h
        obtain ⟨hseen, m2, hsrc, hres, hfind⟩ := ih (i + 1) seen c it h
        have hkne : ¬(hotelKey name = hotelKey it.title) := by
          intro he
          rw [he] at hc
          rw [hc] at hseen
          exact Bool.true_eq_false.mp hseen
        refine ⟨hseen, m2, hsrc, hres, ?_⟩
        rw [List.find?_cons_of_neg _ (by simp [hotelMsgKey, hr, hkne])]
        exact hfind
      · rw [if_neg hc] at h
        rcases List.mem_cons.mp h with rfl | h2
        · refine ⟨by simpa using hc, m, rfl, hr, ?_⟩
          rw [List.find?_cons_of_pos _ (by simp [hotelMsgKey, hr, hotelItem])]
        · obtain ⟨hseen, m2, hsrc, hres, hfind⟩ :=
            ih (i + 1) (hotelKey name :: seen) (c + 1) it h2
          have hparts : ¬(hotelKey it.title = hotelKey name) ∧
              seen.contains (hotelKey it.title) = false := by
            rw [List.contains_cons] at hseen
            constructor
            · intro he
              rw [Bool.or_eq_false_iff] at hseen
              exact absurd (beq_iff_eq.mpr he) (by simp [hseen.1])
            · rw [Bool.or_eq_false_iff] at hseen
              exact hseen.2
          refine ⟨hparts.2, m2, hsrc, hres, ?_⟩
          rw [List.find?_cons_of_neg _
            (by simp [hotelMsgKey, hr]; exact fun he => hparts.1 he.symm)]
          exact hfind

/-- The two messages of the C5 witness, naming the same hotel with
different case and spacing. -/
def dupMsgs : List Msg :=
  [mkM "Check out Lipe Beach Resort on Booking.com",
   mkM "Check out  LIPE BEACH RESORT   on Booking.com"]

/-- The single hotel item the `dupMsgs` run produces. -/
def wHotel : EItem :=
  { id := cs "item-1", category := ItemCategory.HOTEL,
    status := ItemStatus.TENTATIVE, title := cs "Lipe Beach Resort",
    proposed_by := cs "Ann",
    source_messages := [mkM "Check out Lipe Beach Resort on Booking.com"] }

/-- C5: hotel names are deduplicated case-insensitively after whitespace
trimming across the whole run — for every normalised key, the run emits
exactly one HOTEL item when some message resolves a hotel name with that key
(and none otherwise), and every emitted item is built from the first message
whose resolved name has the item's key. -/
theorem claim_C5 (msgs : List Msg) (c : Nat) :
    (∀ k : List Char,
        ((extractHotels msgs c).1.countP
            (fun it => hotelKey it.title == k)) =
          (if msgs.any (fun m => hotelMsgKey m == some k) then 1 else 0)) ∧
      (∀ it ∈ (extractHotels msgs c).1,
        ∃ m, it.source_messages = [m] ∧
          hotelResolve m.content = some it.title ∧
          msgs.find? (fun mm => hotelMsgKey mm == some (hotelKey it.title)) =
            some m) := by
  constructor
  · intro k
    have h := hotelsGo_count msgs msgs 0 [] c k
    simpa using h
  · intro it h
    exact (hotelsGo_first msgs msgs 0 [] c it h).2

/-- C5, witness: the duplicate-mention run emits one item, associated with
the first mention. -/
theorem claim_C5_witness :
    wHotel ∈ (extractHotels dupMsgs 0).1 ∧
      ∃ m, wHotel.source_messages = [m] ∧
        hotelResolve m.content = some wHotel.title ∧
        dupMsgs.find?
            (fun mm => hotelMsgKey mm == some (hotelKey wHotel.title)) =
          some m :=
  ⟨by decide, (claim_C5 dupMsgs 0).2 wHotel (by decide)⟩

end Holidaze
